import Mathlib

/-!
Verification development for the news-article extraction and summarization
pipeline (`extractor.py` / `src/app.py`).

The Python source is shallowly embedded: pure helper functions become Lean
functions over `String` / `List Char`, the post-fetch portion of
`crawl_and_extract` becomes a composition of stage functions over an
explicit `Article` record, and the two external collaborators (the HTTP
fetcher and the HuggingFace summarizer) are abstracted as inputs: the
fetched-and-parsed page is an explicit `PageData` value and the summarizer
is a function `String → Nat → Nat → Option String` (`none` models any
failure or exception of the model call, which `safe_summarize` catches).

Strings are modelled at ASCII granularity: Python `str.strip()` strips the
ASCII whitespace characters, `str.lower()` lowercases ASCII letters, and
the regex word characters of `\w` are ASCII letters, digits and underscore.
-/

namespace NewsExtractor

/-- ASCII whitespace, as stripped by Python `str.strip()`. -/
def isPyWs (c : Char) : Bool :=
  c = ' ' || c = '\t' || c = '\n' || c = '\x0d' || c = '\x0b' || c = '\x0c'

/-- Python `str.strip()` on a character list: drop whitespace on both ends. -/
def stripChars (cs : List Char) : List Char :=
  (cs.dropWhile isPyWs).rdropWhile isPyWs

/-- Python `str.strip()`. -/
def pyStrip (s : String) : String := ⟨stripChars s.data⟩

/-- Python `s[:k]` for a nonnegative `k`. -/
def pyTake (k : Nat) (s : String) : String := ⟨s.data.take k⟩

/-- Python truthiness of an optional string: `None` and `""` are falsy. -/
def truthy : Option String → Bool
  | Option.none => false
  | some s => s ≠ ""

/-- Python `x or y` on optional strings: `y` when `x` is falsy (`None`/`""`). -/
def pyOr (x y : Option String) : Option String :=
  if truthy x then x else y

/-- One step of the final normalization loop of `crawl_and_extract`:
`if data.get(k) and isinstance(data[k], str): data[k] = data[k].strip()`. -/
def stripIfTruthy (o : Option String) : Option String :=
  if truthy o then o.map pyStrip else o

/-- The comma-split-and-trim used for keyword strings:
`[k.strip() for k in s.split(",") if k.strip()]`. -/
def splitTrimKeywords (s : String) : List String :=
  ((s.splitOn ",").map pyStrip).filter (fun k => k ≠ "")

/-- Python `str.lower()` at ASCII granularity. -/
def pyLower (s : String) : String := ⟨s.data.map Char.toLower⟩

/-- Python `str.capitalize()`: first character uppercased, rest lowercased. -/
def pyCapitalize (s : String) : String :=
  match s.data with
  | [] => ""
  | c :: cs => ⟨c.toUpper :: cs.map Char.toLower⟩

/-! ## Text chunker (`chunk_text_by_chars`) -/

/-- `text.rfind(".", start, stop)` restricted to in-range positions:
the largest index `i` with `start ≤ i < stop` holding `'.'`.
Scans downward from `stop - 1`. -/
def rfindDotAux (cs : List Char) (start : Nat) : Nat → Option Nat
  | 0 => Option.none
  | k + 1 =>
    let i := start + k
    if cs.getD i ' ' = '.' then some i else rfindDotAux cs start k

/-- `text.rfind(".", start, stop)` (`none` models Python's `-1`). -/
def rfindDot (cs : List Char) (start stop : Nat) : Option Nat :=
  rfindDotAux cs start (stop - start)

/-- The cut point chosen by one iteration of the chunking loop:
`end = start + max_chars`, moved back to just after the last `'.'` in the
window when that period lies beyond a quarter of the window. -/
def chunkEnd (cs : List Char) (maxChars start : Nat) : Nat :=
  let e0 := start + maxChars
  if e0 < cs.length then
    match rfindDot cs start e0 with
    | some idx => if idx - start > maxChars / 4 then idx + 1 else e0
    | Option.none => e0
  else e0

/-- The raw (untrimmed) slices `text[start:end]` produced by the loop of
`chunk_text_by_chars`; `fuel` bounds the iteration count (the loop advances
by at least one character per step, so `cs.length` steps suffice). -/
def chunkSegsAux (cs : List Char) (maxChars : Nat) : Nat → Nat → List (List Char)
  | 0, _ => []
  | fuel + 1, start =>
    if start < cs.length then
      ((cs.drop start).take (chunkEnd cs maxChars start - start)) ::
        chunkSegsAux cs maxChars fuel (chunkEnd cs maxChars start)
    else []

/-- All raw slices of the chunking loop over the (already stripped) text. -/
def chunkSegs (cs : List Char) (maxChars : Nat) : List (List Char) :=
  chunkSegsAux cs maxChars cs.length 0

/-- `chunk_text_by_chars(text, max_chars)`: strip the text; return it whole
if it fits, else cut windows of `max_chars` characters preferring a late
sentence period, stripping each slice. -/
def chunk_text_by_chars (text : String) (max_chars : Nat) : List String :=
  let t := stripChars text.data
  if t.length ≤ max_chars then [⟨t⟩]
  else (chunkSegs t max_chars).map (fun seg => (⟨stripChars seg⟩ : String))

/-! ## Summarization (`safe_summarize`)

The HuggingFace pipeline call is the injected capability: `summ text maxL
minL` returns `some s` for a successful call producing `summary_text = s`,
and `none` when the call fails or raises (the `except` branch). -/

/-- The summarizer capability boundary. -/
def Summarizer : Type := String → Nat → Nat → Option String

/-- `safe_summarize(text, max_length, min_length)`: strip; empty input
yields `""` without calling the model; a successful call yields the
stripped summary; on failure return `text[:max_length*2].strip() + "..."`
(the source's two fallback branches are textually identical, so they are
modelled as one expression). -/
def safe_summarize (summ : Summarizer) (text : String) (max_length min_length : Nat) : String :=
  let t := pyStrip text
  if t = "" then ""
  else
    match summ t max_length min_length with
    | some s => pyStrip s
    | Option.none => pyStrip (pyTake (max_length * 2) t) ++ "..."

/-! ## Keyword category classifier (`choose_category_by_keywords`) -/

/-- The ordered category-to-keywords mapping, in the source's declaration
order (Python dicts preserve insertion order). -/
def categoriesList : List (String × List String) :=
  [("politics", ["president", "government", "election", "minister", "congress", "parliament"]),
   ("sports", ["match", "tournament", "score", "goal", "season", "coach", "player"]),
   ("tech", ["technology", "tech", "software", "ai ", "artificial intelligence", "startup"]),
   ("business", ["market", "stock", "company", "finance", "economy", "investor"]),
   ("health", ["health", "disease", "vaccine", "hospital", "covid", "mental"]),
   ("science", ["research", "study", "scientists", "physics", "space", "experiment"]),
   ("entertainment", ["film", "movie", "music", "celebrity", "tv", "show"])]

/-- Python `kw in t` (substring containment). -/
def strContains (t kw : String) : Bool := decide (kw.data <:+: t.data)

/-- The nested `for cat, kws: for kw in kws: if kw in t: return
cat.capitalize()` loops. -/
def chooseCatLoop (t : String) : List (String × List String) → String
  | [] => "General"
  | (cat, kws) :: rest =>
    if kws.any (fun kw => strContains t kw) then pyCapitalize cat
    else chooseCatLoop t rest

/-- `choose_category_by_keywords(text)`. -/
def choose_category_by_keywords (text : String) : String :=
  chooseCatLoop (pyLower text) categoriesList

/-! ## Tag inference (the `re.findall` frequency fallback)

`re.findall(r"\b[a-zA-Z]{4,}\b", body.lower())` matches exactly the
maximal runs of word characters (`[a-zA-Z0-9_]` in the ASCII model) that
consist solely of letters and have length at least 4: a `\b` boundary
exists only at the edges of a maximal word-character run, so a match must
cover a whole run. -/

/-- ASCII model of the regex word character `\w`. -/
def isWordChar (c : Char) : Bool := c.isAlpha || c.isDigit || c = '_'

/-- Maximal runs of word characters, in order; `acc` holds the reversed
run in progress (structural recursion, so the kernel can evaluate it). -/
def wordRunsAux : List Char → List Char → List (List Char)
  | [], acc => if acc.isEmpty then [] else [acc.reverse]
  | c :: rest, acc =>
    if isWordChar c then wordRunsAux rest (c :: acc)
    else if acc.isEmpty then wordRunsAux rest [] else acc.reverse :: wordRunsAux rest []

/-- Maximal runs of word characters, in order. -/
def wordRuns (cs : List Char) : List (List Char) := wordRunsAux cs []

/-- The matches of `\b[a-zA-Z]{4,}\b` on the lowercased body. -/
def wordsOf (body : String) : List String :=
  ((wordRuns (pyLower body).data).filter
      (fun t => decide (t.length ≥ 4) && t.all Char.isAlpha)).map
    (fun t => (⟨t⟩ : String))

/-- Distinct elements in order of first occurrence, carrying the set of
elements already seen (the key order of the Python `freq` dict, whose keys
appear in insertion order). -/
def firstOccsAux : List String → List String → List String
  | [], _ => []
  | w :: ws, seen =>
    if seen.contains w then firstOccsAux ws seen
    else w :: firstOccsAux ws (w :: seen)

/-- Distinct elements in order of first occurrence. -/
def firstOccs (ws : List String) : List String := firstOccsAux ws []

/-- `freq.items()`: each distinct word, in first-occurrence order, with its
number of occurrences. -/
def freqPairs (ws : List String) : List (String × Nat) :=
  (firstOccs ws).map (fun w => (w, ws.count w))

/-- Insert into a count-descending list, after every entry with a strictly
larger count and before every entry with a smaller-or-equal count. -/
def insertDesc (x : String × Nat) : List (String × Nat) → List (String × Nat)
  | [] => [x]
  | y :: ys => if y.2 > x.2 then y :: insertDesc x ys else x :: y :: ys

/-- Stable sort by count, descending: the model of Python
`sorted(freq.items(), key=lambda x: x[1], reverse=True)` (Python's sort is
stable and `reverse=True` preserves the original order of equal keys). -/
def sortDescByCount (l : List (String × Nat)) : List (String × Nat) :=
  l.foldr insertDesc []

/-- The tag-inference fallback of `crawl_and_extract` (lines 305-311):
top 6 words by frequency, or `["general"]` when there are no words. -/
def inferTags (body : String) : List String :=
  let top := (sortDescByCount (freqPairs (wordsOf body))).take 6
  if top ≠ [] then top.map Prod.fst else ["general"]

/-! ## Parsed-document model and the body extractor (`extract_main_text`)

The BeautifulSoup tree is modelled as a tag-labelled rose tree with text
leaves. A `Dom` value passed to the extractor plays the role of the soup
object: searches (`find` / `find_all`) cover its descendants in document
(preorder) order, as in BeautifulSoup, and `get_text` collects the text
leaves of a subtree. -/

mutual
/-- A parsed HTML node: an element with a tag and children, or a text node. -/
inductive Dom where
  | elem : String → DomForest → Dom
  | txt : String → Dom
/-- The children sequence of an element. A specialized list type, so that
the tree functions below are structurally recursive (and hence the kernel
can evaluate them on concrete documents). -/
inductive DomForest where
  | nil : DomForest
  | cons : Dom → DomForest → DomForest
end

/-- Build a children sequence from a list of nodes. -/
def toForest : List Dom → DomForest
  | [] => DomForest.nil
  | d :: ds => DomForest.cons d (toForest ds)

mutual
/-- All text-leaf strings of a subtree, in document order. -/
def domStrings : Dom → List String
  | .txt s => [s]
  | .elem _ cs => forestStrings cs
/-- All text-leaf strings below a children sequence, in document order. -/
def forestStrings : DomForest → List String
  | .nil => []
  | .cons d ds => domStrings d ++ forestStrings ds
end

/-- `get_text(separator=sep, strip=True)`: each descendant string stripped,
empty ones skipped, the rest joined with `sep` (BeautifulSoup's
`stripped_strings` behaviour). -/
def getText (sep : String) (d : Dom) : String :=
  String.intercalate sep (((domStrings d).map pyStrip).filter (fun s => s ≠ ""))

mutual
/-- The element and all its descendant elements, in preorder. -/
def allElems : Dom → List Dom
  | .txt _ => []
  | .elem t cs => Dom.elem t cs :: forestElems cs
/-- All elements below a children sequence, in document (preorder) order. -/
def forestElems : DomForest → List Dom
  | .nil => []
  | .cons d ds => allElems d ++ forestElems ds
end

/-- The descendant elements of a node, in document order — the search scope
of `find` / `find_all` called on that node. -/
def childElems : Dom → List Dom
  | .txt _ => []
  | .elem _ cs => forestElems cs

/-- Does this node carry the given element tag? -/
def tagIs (name : String) : Dom → Bool
  | .elem t _ => t = name
  | .txt _ => false

/-- `node.find_all(name)`. -/
def findAllTag (name : String) (node : Dom) : List Dom :=
  (childElems node).filter (tagIs name)

/-- `node.find(name)`: first matching descendant in document order. -/
def findTag (name : String) (node : Dom) : Option Dom :=
  (findAllTag name node).head?

/-- The joined-paragraph text of a container:
`"\n\n".join([p.get_text(separator=" ", strip=True) for p in ps if p.get_text(strip=True)])`. -/
def joinParaTexts (ps : List Dom) : String :=
  String.intercalate "\n\n"
    ((ps.filter (fun p => getText "" p ≠ "")).map (fun p => getText " " p))

/-- The accumulator step of the `len(text) > len(best)` scan. -/
def bestStep (b t : String) : String := if t.length > b.length then t else b

/-- `best` after scanning the candidate texts in document order, starting
from `""`: keeps the first longest (replacement only on strictly greater
length). -/
def bestText (l : List String) : String := l.foldl bestStep ""

/-- Rules 3 and 4 of the extractor: the longest joined-paragraph text over
all div/section containers in document order (strictly-longer replacement,
so the first longest wins), falling through to every paragraph of the
document when that best text is empty. -/
def divScan (soup : Dom) : String :=
  let best := bestText
    (((childElems soup).filter (fun d => tagIs "div" d || tagIs "section" d)).map
      (fun d => joinParaTexts (findAllTag "p" d)))
  if best ≠ "" then best
  else joinParaTexts (findAllTag "p" soup)

/-- `extract_main_text(soup)`: article container first (its mere presence
decides: joined paragraphs when it has paragraph elements, else its full
text), then a `main` container with paragraphs, then the div/section scan
with the all-paragraphs fallback. -/
def extract_main_text (soup : Dom) : String :=
  match findTag "article" soup with
  | some article =>
    if (findAllTag "p" article).isEmpty then getText "\n" article
    else joinParaTexts (findAllTag "p" article)
  | Option.none =>
    match findTag "main" soup with
    | some m =>
      if (findAllTag "p" m).isEmpty then divScan soup
      else joinParaTexts (findAllTag "p" m)
    | Option.none => divScan soup

/-! ## JSON-LD structured data (`parse_json_ld` consumers)

A parsed JSON-LD node is modelled by the fields `crawl_and_extract`
actually reads. `Option.none` models an absent key; the `@type` value may
be a string or a list of strings (`node.get("@type") or node.get("type")
or ""` resolves an absent/falsy type to `""`, which never qualifies). The
`author` value distinguishes the shapes the source branches on; Python
values that are falsy (`None`, `""`, `{}`, `[]`) never enter a branch and
are modelled as an absent author. -/

/-- The shapes of a truthy `node.get("author")` value the source inspects. -/
inductive LdAuthor where
  /-- A non-empty dict; the payload is its `name` value (`none` if the key
  is missing). -/
  | adict : Option String → LdAuthor
  /-- A non-empty list whose first element is a dict; the payload is that
  dict's `name` value. -/
  | alistDict : Option String → LdAuthor
  /-- A non-empty list whose first element is not a dict; the payload is
  `str()` of that element. -/
  | alistOther : String → LdAuthor
  /-- Any other truthy value; the payload is its `str()`. -/
  | astr : String → LdAuthor

/-- A JSON-LD item as read by the extractor loop. -/
structure LdNode where
  /-- The value of `node.get("@type") or node.get("type") or ""`. -/
  typ : String ⊕ List String
  headline : Option String
  /-- The `name` key, the headline fallback. -/
  name : Option String
  datePublished : Option String
  articleSection : Option String
  author : Option LdAuthor
  /-- `keywords`: a list (used verbatim) or a string (split on commas). -/
  keywords : Option (List String ⊕ String)

/-- The resolved type string: a list type contributes its first element
(`t = t[0] if t else ""`). -/
def nodeTypeStr (n : LdNode) : String :=
  match n.typ with
  | Sum.inl s => s
  | Sum.inr [] => ""
  | Sum.inr (s :: _) => s

/-- `t.lower() in ("newsarticle", "article", "blogposting")`. -/
def qualifies (n : LdNode) : Bool :=
  let t := pyLower (nodeTypeStr n)
  t = "newsarticle" || t = "article" || t = "blogposting"

/-- A top-level parsed JSON-LD block: non-dict blocks are skipped, a dict
with a list-valued `@graph` contributes its members, any other dict
contributes itself. -/
inductive LdBlock where
  | nonDict : LdBlock
  | node : LdNode → LdBlock
  | graph : List LdNode → LdBlock

/-- The nodes a block contributes to the extractor loop. -/
def blockNodes : LdBlock → List LdNode
  | .nonDict => []
  | .node n => [n]
  | .graph ns => ns

/-! ## The pipeline record and stages (`crawl_and_extract`) -/

/-- The `data` dict of `crawl_and_extract` (keys `url`, `Headline`, `Body`,
`Author`, `Publication date and time`, `Category`, `Tags`, `Excerpt`). -/
structure Article where
  url : String
  headline : Option String
  body : Option String
  author : Option String
  publishedAt : Option String
  category : Option String
  tags : List String
  excerpt : Option String

/-- The record as initialized at the top of `crawl_and_extract`. -/
def emptyArticle (url : String) : Article :=
  { url := url, headline := Option.none, body := Option.none,
    author := Option.none, publishedAt := Option.none,
    category := Option.none, tags := [], excerpt := Option.none }

/-- The author assignment of the structured-data loop (`a` truthy). -/
def updAuthor (old : Option String) : Option LdAuthor → Option String
  | Option.none => old
  | some (.adict nm) => pyOr nm old
  | some (.alistDict nm) => pyOr nm old
  | some (.alistOther s) => some s
  | some (.astr s) => some s

/-- The tags a truthy `keywords` value converts to. -/
def kwTags : List String ⊕ String → List String
  | Sum.inl l => l
  | Sum.inr s => splitTrimKeywords s

/-- Is the `keywords` value truthy (non-empty list or non-empty string)? -/
def truthyKw : Option (List String ⊕ String) → Bool
  | Option.none => false
  | some (Sum.inl l) => !l.isEmpty
  | some (Sum.inr s) => s ≠ ""

/-- The body of the structured-data loop for one node: headline is filled
only when still falsy; author is reassigned whenever a truthy author value
is present; `datePublished` and `articleSection` are overwritten by every
qualifying node that supplies a truthy value; keywords fill `Tags` only
while `Tags` is empty. The source performs these as sequential statements;
since each statement reads only the field it assigns, the simultaneous
record update below is equivalent. -/
def applyNode (d : Article) (n : LdNode) : Article :=
  if qualifies n then
    { d with
      headline := if truthy d.headline then d.headline
                  else pyOr n.headline (pyOr n.name d.headline)
      author := updAuthor d.author n.author
      publishedAt := if truthy n.datePublished then n.datePublished else d.publishedAt
      category := if truthy n.articleSection then n.articleSection else d.category
      tags := match n.keywords with
              | some kw => if truthyKw (some kw) && d.tags.isEmpty then kwTags kw else d.tags
              | Option.none => d.tags }
  else d

/-- The whole structured-data stage: every node of every block, in order. -/
def applyStructured (d : Article) (blocks : List LdBlock) : Article :=
  (blocks.map blockNodes).flatten.foldl applyNode d

/-- The fields `extract_meta` hands to the pipeline. `title` is always a
string (possibly empty); the rest are `None` when no alias matched. The
values carry whatever `extract_meta` produced; the pipeline does not
re-inspect the document for them. -/
structure MetaF where
  title : String
  description : Option String
  author : Option String
  published_time : Option String
  /-- The `section` entry of the meta dict (`section` is a Lean keyword). -/
  metaSection : Option String
  keywords : Option String

/-- The meta-tag fallback stage (lines 277-286): each field is filled only
when still falsy; `Tags` from meta keywords are split, trimmed and
non-empty. `docTitle` is `soup.title.string` (unstripped), used as the
final headline fallback. -/
def metaStage (meta : MetaF) (docTitle : Option String) (d : Article) : Article :=
  { d with
    headline := if truthy d.headline then d.headline
                else pyOr (some meta.title) (docTitle.map pyStrip)
    author := if truthy d.author then d.author else meta.author
    publishedAt := if truthy d.publishedAt then d.publishedAt else meta.published_time
    category := if truthy d.category then d.category else meta.metaSection
    tags := if d.tags.isEmpty then
              match meta.keywords with
              | some ks => if ks ≠ "" then splitTrimKeywords ks else d.tags
              | Option.none => d.tags
            else d.tags }

/-- `data["Body"] = extract_main_text(soup) or None`. -/
def bodyStage (dom : Dom) (d : Article) : Article :=
  let bodyText := extract_main_text dom
  { d with body := if bodyText = "" then Option.none else some bodyText }

/-- The chunk/summarize stage (lines 291-301). -/
def excerptStage (summ : Summarizer) (d : Article) : Article :=
  if truthy d.body then
    let b := d.body.getD ""
    let chunks := chunk_text_by_chars b 3000
    let excerpt :=
      if chunks.length = 1 then safe_summarize summ b 130 30
      else
        safe_summarize summ
          (String.intercalate "\n\n" (chunks.map (fun ch => safe_summarize summ ch 120 20)))
          150 40
    { d with excerpt := some excerpt }
  else d

/-- The keyword-classifier fallback (lines 302-303): run only when the
category is falsy (`not data["Category"] or data["Category"] == ""`, whose
second disjunct is subsumed by the first), on the first 4000 characters of
the body. -/
def categoryStage (d : Article) : Article :=
  if truthy d.category then d
  else { d with category := some (choose_category_by_keywords (pyTake 4000 (d.body.getD ""))) }

/-- The tag-inference fallback (lines 305-311), run only when `Tags` is
still empty. -/
def tagStage (d : Article) : Article :=
  if d.tags.isEmpty then { d with tags := inferTags (d.body.getD "") } else d

/-- The final normalization loop over `Headline`, `Author`, `Publication
date & time`, `Category`, `Excerpt`, `Body` (every value is a string in
this model, so the `isinstance` guard always passes). -/
def normalizeStage (d : Article) : Article :=
  { d with headline := stripIfTruthy d.headline,
           author := stripIfTruthy d.author,
           publishedAt := stripIfTruthy d.publishedAt,
           category := stripIfTruthy d.category,
           excerpt := stripIfTruthy d.excerpt,
           body := stripIfTruthy d.body }

/-- Everything `crawl_and_extract` computes from the fetched page: the
parsed JSON-LD blocks, the meta fields, the title element's string and the
parsed document itself. -/
structure PageData where
  jsonld : List LdBlock
  meta : MetaF
  docTitle : Option String
  dom : Dom

/-- The post-fetch pipeline of `crawl_and_extract`, stage by stage. -/
def pipelineCore (summ : Summarizer) (url : String) (p : PageData) : Article :=
  normalizeStage
    (tagStage
      (categoryStage
        (excerptStage summ
          (bodyStage p.dom
            (metaStage p.meta p.docTitle
              (applyStructured (emptyArticle url) p.jsonld))))))

/-- `crawl_and_extract(url)` given the fetch outcome: a failed fetch
(`none`) returns the empty record (`if not html: return data`); otherwise
the extraction pipeline runs on the parsed page. -/
def crawl_and_extract (summ : Summarizer) (url : String) : Option PageData → Article
  | Option.none => emptyArticle url
  | some p => pipelineCore summ url p

/-! ## Specification-side descriptions of the structured-data stage

These follow the (amended) specification wording, to be compared with the
fold the source performs. -/

/-- The headline a single node offers: its truthy `headline`, else its
truthy `name`, else nothing. -/
def nodeHead (n : LdNode) : Option String :=
  if truthy n.headline then n.headline
  else if truthy n.name then n.name
  else Option.none

/-- Spec: the first qualifying item supplying a non-empty headline (or
name) determines the headline. -/
def specFirstHeadline (ns : List LdNode) : Option String :=
  ns.findSome? (fun n => if qualifies n then nodeHead n else Option.none)

/-- Spec (amended): the last qualifying item supplying a non-empty
`datePublished` determines the publication date. -/
def specLastDate : List LdNode → Option String
  | [] => Option.none
  | n :: rest =>
    match specLastDate rest with
    | some d => some d
    | Option.none => if qualifies n && truthy n.datePublished then n.datePublished else Option.none

/-- Spec (amended): the last qualifying item supplying a non-empty
`articleSection` determines the category. -/
def specLastSection : List LdNode → Option String
  | [] => Option.none
  | n :: rest =>
    match specLastSection rest with
    | some d => some d
    | Option.none => if qualifies n && truthy n.articleSection then n.articleSection else Option.none

/-- Spec (amended): the first qualifying item whose truthy `keywords`
value converts to a non-empty tag list determines the tags. -/
def specFirstTags : List LdNode → Option (List String)
  | [] => Option.none
  | n :: rest =>
    match n.keywords with
    | some kw =>
      if qualifies n && truthyKw (some kw) && !(kwTags kw).isEmpty then some (kwTags kw)
      else specFirstTags rest
    | Option.none => specFirstTags rest

/-! ## Concrete test fixtures used by witnesses and counterexamples -/

/-- A summarizer capability that always fails. -/
def failSumm : Summarizer := fun _ _ _ => Option.none

/-- A summarizer capability that always answers with a fixed summary. -/
def okSumm : Summarizer := fun _ _ _ => some " A summary. "

/-- Meta fields with nothing resolved. -/
def mNone : MetaF :=
  { title := "", description := Option.none, author := Option.none,
    published_time := Option.none, metaSection := Option.none, keywords := Option.none }

/-- An `LdNode` with every field absent and a non-qualifying type. -/
def nBlank : LdNode :=
  { typ := Sum.inl "", headline := Option.none, name := Option.none,
    datePublished := Option.none, articleSection := Option.none,
    author := Option.none, keywords := Option.none }

/-- A qualifying item carrying a headline, a whitespace-only section and a
keywords list containing an empty string (the C2 counterexample). -/
def nBad : LdNode :=
  { nBlank with
    typ := Sum.inl "NewsArticle"
    headline := some "H"
    articleSection := some " "
    keywords := some (Sum.inl [""]) }

/-- First qualifying item of the C3 counterexample: `datePublished` "D1". -/
def nDate1 : LdNode :=
  { nBlank with typ := Sum.inl "NewsArticle", datePublished := some "D1" }

/-- Second qualifying item of the C3 counterexample: `datePublished` "D2". -/
def nDate2 : LdNode :=
  { nBlank with typ := Sum.inl "Article", datePublished := some "D2" }

/-- A qualifying item with an author dict naming "X". -/
def nAuthX : LdNode :=
  { nBlank with typ := Sum.inl "NewsArticle", author := some (LdAuthor.adict (some "X")) }

/-- A qualifying item with an author dict naming "Y". -/
def nAuthY : LdNode :=
  { nBlank with typ := Sum.inl "NewsArticle", author := some (LdAuthor.adict (some "Y")) }

/-- The qualifying NewsArticle block of the C7 scenario: headline "A". -/
def nHeadA : LdNode :=
  { nBlank with typ := Sum.inl "NewsArticle", headline := some "A" }

/-- A document whose only content is one paragraph inside an article. -/
def domBody : Dom :=
  Dom.elem "html" (toForest
    [Dom.elem "article" (toForest [Dom.elem "p" (toForest [Dom.txt "Body text."])])])

/-- A document with an article containing an empty paragraph next to a div
containing a paragraph with text (the C4 counterexample). -/
def domC4 : Dom :=
  Dom.elem "html" (toForest
    [Dom.elem "article" (toForest [Dom.elem "p" DomForest.nil]),
     Dom.elem "div" (toForest [Dom.elem "p" (toForest [Dom.txt "Hello"])])])

/-- A document with no content at all. -/
def domEmpty : Dom := Dom.elem "html" DomForest.nil

/-- A document with no semantic containers and two divs, the second with
the longer paragraph text (exercises the longest-div scan). -/
def domDivs : Dom :=
  Dom.elem "html" (toForest
    [Dom.elem "div" (toForest [Dom.elem "p" (toForest [Dom.txt "a"])]),
     Dom.elem "div" (toForest [Dom.elem "p" (toForest [Dom.txt "longer text"])])])

/-- The page of the C2 counterexample. -/
def pageBad : PageData :=
  { jsonld := [LdBlock.node nBad], meta := mNone, docTitle := Option.none, dom := domEmpty }

/-- The page of the C7 witness: structured headline "A", meta title "B". -/
def pageAB : PageData :=
  { jsonld := [LdBlock.node nHeadA], meta := { mNone with title := "B" },
    docTitle := Option.none, dom := domBody }

/-! ## Shared lemmas about Python stripping -/

theorem dropWhile_fix_of_prefix {α : Type} (p : α → Bool) :
    ∀ {l m : List α}, l <+: m → List.dropWhile p m = m → List.dropWhile p l = l := by
  intro l m h hm
  cases l with
  | nil => simp
  | cons a l' =>
    obtain ⟨t, ht⟩ := h
    have hpa : p a = false := by
      by_contra hpa
      have hpa' : p a = true := by revert hpa; cases p a <;> simp
      rw [← ht, List.cons_append, List.dropWhile_cons] at hm
      simp only [hpa', if_true] at hm
      have hlen := congrArg List.length hm
      simp only [List.length_cons] at hlen
      have hle : (List.dropWhile p (l' ++ t)).length ≤ (l' ++ t).length :=
        (List.dropWhile_suffix p).length_le
      omega
    simp [List.dropWhile_cons, hpa]

theorem dropWhile_fix_append {α : Type} (p : α → Bool) {l : List α}
    (hl : List.dropWhile p l = l) (hne : l ≠ []) (m : List α) :
    List.dropWhile p (l ++ m) = l ++ m := by
  cases l with
  | nil => exact absurd rfl hne
  | cons a l' =>
    have hpa : p a = false := by
      by_contra hpa
      have hpa' : p a = true := by revert hpa; cases p a <;> simp
      rw [List.dropWhile_cons] at hl
      simp only [hpa', if_true] at hl
      have hlen := congrArg List.length hl
      simp only [List.length_cons] at hlen
      have hle : (List.dropWhile p l').length ≤ l'.length := (List.dropWhile_suffix p).length_le
      omega
    simp [List.dropWhile_cons, hpa]

theorem stripTheorem_dropWhile_fix (cs : List Char) :
    List.dropWhile isPyWs (stripChars cs) = stripChars cs :=
  dropWhile_fix_of_prefix isPyWs ( List.rdropWhile_prefix isPyWs (cs.dropWhile isPyWs))
    (List.dropWhile_idempotent isPyWs cs)

theorem stripChars_idem (cs : List Char) : stripChars (stripChars cs) = stripChars cs := by
  show (List.dropWhile isPyWs (stripChars cs)).rdropWhile isPyWs = stripChars cs
  rw [stripTheorem_dropWhile_fix cs]
  exact List.rdropWhile_idempotent isPyWs (List.dropWhile isPyWs cs)

theorem pyStrip_idem (s : String) : pyStrip (pyStrip s) = pyStrip s :=
  congrArg String.mk (stripChars_idem s.data)

theorem stripChars_length_le (cs : List Char) : (stripChars cs).length ≤ cs.length :=
  le_trans ( List.rdropWhile_prefix isPyWs (cs.dropWhile isPyWs)).length_le
    (List.dropWhile_suffix isPyWs).length_le

theorem stripChars_infix_self (cs : List Char) : stripChars cs <:+: cs :=
  ( List.rdropWhile_prefix isPyWs (cs.dropWhile isPyWs)).isInfix.trans
    (List.dropWhile_suffix isPyWs).isInfix

theorem stripChars_nil : stripChars [] = [] := rfl

theorem stripChars_take_of_fix {x : List Char} (hx : List.dropWhile isPyWs x = x) (k : Nat) :
    stripChars (x.take k) <+: x.take k := by
  have h2 : List.dropWhile isPyWs (x.take k) = x.take k :=
    dropWhile_fix_of_prefix isPyWs ( List.take_prefix k x) hx
  show (List.dropWhile isPyWs (x.take k)).rdropWhile isPyWs <+: x.take k
  rw [h2]
  exact List.rdropWhile_prefix isPyWs (x.take k)

theorem stripChars_append_dots (cs : List Char) :
    stripChars (stripChars cs ++ ('.' :: '.' :: '.' :: [])) =
      stripChars cs ++ ('.' :: '.' :: '.' :: []) := by
  have hdots : ¬ isPyWs '.' = true := by decide
  have hA : List.dropWhile isPyWs (stripChars cs ++ ('.' :: '.' :: '.' :: [])) =
      stripChars cs ++ ('.' :: '.' :: '.' :: []) := by
    cases hx : stripChars cs with
    | nil => simp [List.dropWhile_cons, hdots]
    | cons a t =>
      rw [← hx]
      refine dropWhile_fix_append isPyWs (stripTheorem_dropWhile_fix cs) ?_ _
      rw [hx]; simp
  show (List.dropWhile isPyWs _).rdropWhile isPyWs = _
  rw [hA]
  have : stripChars cs ++ ('.' :: '.' :: '.' :: []) =
      (stripChars cs ++ ('.' :: '.' :: [])) ++ ['.'] := by simp
  rw [this]
  exact List.rdropWhile_concat_neg isPyWs _ '.' hdots

theorem pyStrip_safe_summarize (summ : Summarizer) (t : String) (a b : Nat) :
    pyStrip (safe_summarize summ t a b) = safe_summarize summ t a b := by
  unfold safe_summarize
  by_cases hx : pyStrip t = ""
  · simp only [hx, if_pos rfl]
    rfl
  · simp only [if_neg hx]
    cases summ (pyStrip t) a b with
    | some s => exact pyStrip_idem s
    | none =>
      show pyStrip ⟨stripChars ((pyStrip t).data.take (a * 2)) ++ ('.' :: '.' :: '.' :: [])⟩ =
        ⟨stripChars ((pyStrip t).data.take (a * 2)) ++ ('.' :: '.' :: '.' :: [])⟩
      exact congrArg String.mk (stripChars_append_dots ((pyStrip t).data.take (a * 2)))

/-! ## Chunker lemmas -/

theorem rfindDotAux_bound (cs : List Char) (start : Nat) :
    ∀ k i, rfindDotAux cs start k = some i → start ≤ i ∧ i < start + k := by
  intro k
  induction k with
  | zero => intro i h; simp [rfindDotAux] at h
  | succ k ih =>
    intro i h
    rw [rfindDotAux] at h
    by_cases hc : cs.getD (start + k) ' ' = '.'
    · simp only [hc, if_pos] at h
      cases h
      omega
    · simp only [hc, if_neg, if_false] at h
      have := ih i h
      omega

theorem chunkEnd_le (cs : List Char) (maxChars start : Nat) :
    chunkEnd cs maxChars start ≤ start + maxChars := by
  simp only [chunkEnd]
  split
  · split
    · rename_i idx heq
      have hb := rfindDotAux_bound cs start (start + maxChars - start) idx heq
      split
      · omega
      · omega
    · omega
  · omega

theorem chunkEnd_gt (cs : List Char) {maxChars : Nat} (h : 1 ≤ maxChars) (start : Nat) :
    start < chunkEnd cs maxChars start := by
  simp only [chunkEnd]
  split
  · split
    · rename_i idx heq
      have hb := rfindDotAux_bound cs start (start + maxChars - start) idx heq
      split
      · omega
      · omega
    · omega
  · omega

theorem chunkSegsAux_join (cs : List Char) {maxChars : Nat} (h : 1 ≤ maxChars) :
    ∀ fuel start, cs.length - start ≤ fuel →
      (chunkSegsAux cs maxChars fuel start).flatten = cs.drop start := by
  intro fuel
  induction fuel with
  | zero =>
    intro start hf
    have hs : cs.length ≤ start := by omega
    simp [chunkSegsAux, List.drop_eq_nil_of_le hs]
  | succ fuel ih =>
    intro start hf
    rw [chunkSegsAux]
    by_cases hs : start < cs.length
    · simp only [if_pos hs, List.flatten_cons]
      have hgt : start < chunkEnd cs maxChars start := chunkEnd_gt cs h start
      rw [ih (chunkEnd cs maxChars start) (by omega)]
      have hdd : cs.drop (chunkEnd cs maxChars start) =
          (cs.drop start).drop (chunkEnd cs maxChars start - start) := by
        rw [List.drop_drop]
        congr 1
        omega
      rw [hdd, List.take_append_drop]
    · simp only [if_neg hs]
      have hle : cs.length ≤ start := by omega
      simp [List.drop_eq_nil_of_le hle]

theorem chunkSegsAux_mem (cs : List Char) (maxChars : Nat) :
    ∀ fuel start seg, seg ∈ chunkSegsAux cs maxChars fuel start →
      ∃ s, seg = (cs.drop s).take (chunkEnd cs maxChars s - s) := by
  intro fuel
  induction fuel with
  | zero => intro start seg hmem; simp [chunkSegsAux] at hmem
  | succ fuel ih =>
    intro start seg hmem
    rw [chunkSegsAux] at hmem
    by_cases hs : start < cs.length
    · simp only [if_pos hs, List.mem_cons] at hmem
      cases hmem with
      | inl he => exact ⟨start, he⟩
      | inr ht => exact ih _ seg ht
    · simp [if_neg hs] at hmem

theorem chunkSeg_length_le (cs : List Char) (maxChars s : Nat) :
    ((cs.drop s).take (chunkEnd cs maxChars s - s)).length ≤ maxChars := by
  have h1 : ((cs.drop s).take (chunkEnd cs maxChars s - s)).length ≤
      chunkEnd cs maxChars s - s := by
    rw [List.length_take]
    exact min_le_left _ _
  have h2 := chunkEnd_le cs maxChars s
  omega

theorem chunkSegsAux_ne_nil (cs : List Char) (maxChars fuel start : Nat)
    (hf : 1 ≤ fuel) (hs : start < cs.length) :
    chunkSegsAux cs maxChars fuel start ≠ [] := by
  cases fuel with
  | zero => omega
  | succ f => rw [chunkSegsAux]; simp [hs]

theorem chunkSegs_two_le (cs : List Char) {maxChars : Nat} (h : 1 ≤ maxChars)
    (hl : maxChars < cs.length) : 2 ≤ (chunkSegs cs maxChars).length := by
  have hj : (chunkSegs cs maxChars).flatten = cs := by
    have := chunkSegsAux_join cs h cs.length 0 (by omega)
    simpa using this
  cases hx : chunkSegs cs maxChars with
  | nil =>
    rw [hx] at hj
    have hlen := congrArg List.length hj
    simp at hlen
    omega
  | cons a tail =>
    cases htl : tail with
    | nil =>
      rw [htl] at hx
      rw [hx] at hj
      have hlen := congrArg List.length hj
      simp at hlen
      have ha : a ∈ chunkSegs cs maxChars := by rw [hx]; simp
      obtain ⟨s, hs⟩ := chunkSegsAux_mem cs maxChars cs.length 0 a ha
      have hle : a.length ≤ maxChars := by
        rw [hs]; exact chunkSeg_length_le cs maxChars s
      omega
    | cons b l =>
      simp only [List.length_cons]
      omega

/-! ## C1 and C8: the chunker contract -/

theorem chunk_text_eq_pos {text : String} {maxChars : Nat}
    (hfit : (stripChars text.data).length ≤ maxChars) :
    chunk_text_by_chars text maxChars = [⟨stripChars text.data⟩] := by
  simp only [chunk_text_by_chars]
  rw [if_pos hfit]

theorem chunk_text_eq_neg {text : String} {maxChars : Nat}
    (hfit : ¬ (stripChars text.data).length ≤ maxChars) :
    chunk_text_by_chars text maxChars =
      (chunkSegs (stripChars text.data) maxChars).map
        (fun seg => (⟨stripChars seg⟩ : String)) := by
  simp only [chunk_text_by_chars]
  rw [if_neg hfit]

/-- C1, counterexample: the claim asserts the chunk count is 1 iff
`len(text) ≤ maxChars`, but the chunker strips its input first: `"aa "`
with `maxChars = 2` has length 3 > 2 yet yields the single chunk `"aa"`. -/
theorem chunk_count_iff_counterexample :
    (chunk_text_by_chars "aa " 2).length = 1 ∧ ¬ (("aa " : String).length ≤ 2) := by
  constructor
  · rfl
  · decide

/-- C1 (amended): for `maxChars ≥ 1` the chunks are exactly the stripped
raw slices, the raw slices concatenate to the whitespace-stripped input
(so re-inserting the trimmed whitespace reconstructs the stripped input),
every chunk has length at most `maxChars` (unconditionally), and the chunk
count is 1 iff the stripped input has length at most `maxChars`. -/
theorem chunk_text_by_chars_reconstruction (text : String) (maxChars : Nat)
    (h : 1 ≤ maxChars) :
    (chunk_text_by_chars text maxChars =
       (if (stripChars text.data).length ≤ maxChars then [stripChars text.data]
        else chunkSegs (stripChars text.data) maxChars).map
         (fun seg => (⟨stripChars seg⟩ : String)))
    ∧ ((if (stripChars text.data).length ≤ maxChars then [stripChars text.data]
        else chunkSegs (stripChars text.data) maxChars).flatten = stripChars text.data)
    ∧ (∀ c ∈ chunk_text_by_chars text maxChars, c.length ≤ maxChars)
    ∧ ((chunk_text_by_chars text maxChars).length = 1 ↔
        (stripChars text.data).length ≤ maxChars) := by
  by_cases hfit : (stripChars text.data).length ≤ maxChars
  · refine ⟨?_, ?_, ?_, ?_⟩
    · rw [chunk_text_eq_pos hfit, if_pos hfit]
      simp only [List.map_cons, List.map_nil]
      rw [stripChars_idem]
    · rw [if_pos hfit]
      simp
    · intro c hc
      rw [chunk_text_eq_pos hfit] at hc
      simp only [List.mem_singleton] at hc
      subst hc
      exact hfit
    · rw [chunk_text_eq_pos hfit]
      simp [hfit]
  · refine ⟨?_, ?_, ?_, ?_⟩
    · rw [chunk_text_eq_neg hfit, if_neg hfit]
    · rw [if_neg hfit]
      exact chunkSegsAux_join (stripChars text.data) h _ 0 (by omega)
    · intro c hc
      rw [chunk_text_eq_neg hfit] at hc
      simp only [List.mem_map] at hc
      obtain ⟨seg, hseg, hc⟩ := hc
      obtain ⟨s, hs⟩ := chunkSegsAux_mem _ maxChars _ 0 seg hseg
      subst hc
      show (stripChars seg).length ≤ maxChars
      calc (stripChars seg).length ≤ seg.length := stripChars_length_le seg
        _ ≤ maxChars := by rw [hs]; exact chunkSeg_length_le _ maxChars s
    · rw [chunk_text_eq_neg hfit]
      constructor
      · intro h1
        exfalso
        have h2 : 2 ≤ (chunkSegs (stripChars text.data) maxChars).length :=
          chunkSegs_two_le _ h (by omega)
        rw [List.length_map] at h1
        omega
      · intro h1; exact absurd h1 hfit

/-- C1 witness: the amended contract applied to a concrete text needing a
nontrivial split. -/
theorem chunk_text_by_chars_reconstruction_witness :
    (chunk_text_by_chars " ab. cd " 4).length = 1 ↔
      (stripChars (" ab. cd " : String).data).length ≤ 4 :=
  (chunk_text_by_chars_reconstruction " ab. cd " 4 (by decide)).2.2.2

/-- C8, counterexample: the claim asserts every chunk is non-empty, but
the empty text yields the single empty chunk `[""]`. -/
theorem chunk_nonempty_counterexample : "" ∈ chunk_text_by_chars "" 5 := by decide

/-- C8 (amended): every chunk is a trimmed (strip-fixed) substring of the
input — possibly empty — and an input of length at most `maxChars` yields
exactly the one chunk holding the stripped input. -/
theorem chunk_text_by_chars_substrings (text : String) (maxChars : Nat) :
    (∀ c ∈ chunk_text_by_chars text maxChars, pyStrip c = c ∧ c.data <:+: text.data)
    ∧ (text.length ≤ maxChars → chunk_text_by_chars text maxChars = [pyStrip text]) := by
  constructor
  · intro c hc
    by_cases hfit : (stripChars text.data).length ≤ maxChars
    · rw [chunk_text_eq_pos hfit] at hc
      simp only [List.mem_singleton] at hc
      subst hc
      exact ⟨congrArg String.mk (stripChars_idem text.data), stripChars_infix_self text.data⟩
    · rw [chunk_text_eq_neg hfit] at hc
      simp only [List.mem_map] at hc
      obtain ⟨seg, hseg, hc⟩ := hc
      obtain ⟨s, hs⟩ := chunkSegsAux_mem _ maxChars _ 0 seg hseg
      subst hc
      refine ⟨congrArg String.mk (stripChars_idem seg), ?_⟩
      have h1 : stripChars seg <:+: seg := stripChars_infix_self seg
      have h2 : seg <:+: stripChars text.data := by
        rw [hs]
        exact ( List.take_prefix _ _).isInfix.trans (List.drop_suffix _ _).isInfix
      exact h1.trans (h2.trans (stripChars_infix_self text.data))
  · intro hlen
    have hfit : (stripChars text.data).length ≤ maxChars :=
      le_trans (stripChars_length_le text.data) hlen
    exact chunk_text_eq_pos hfit

/-- C8 witness: the amended contract applied to a concrete short text. -/
theorem chunk_text_by_chars_substrings_witness :
    chunk_text_by_chars " hi " 9 = [pyStrip " hi "] :=
  (chunk_text_by_chars_substrings " hi " 9).2 (by decide)

/-! ## C6: the summarization fallback -/

/-- C6, counterexample: the claim says the fallback is a truncated prefix
of *the input* plus an ellipsis, but the fallback truncates the *stripped*
input: on `" abc"` (with an always-failing capability) the result
`"abc..."` is not any prefix of `" abc"` followed by `"..."`. -/
theorem safe_summarize_prefix_counterexample :
    safe_summarize failSumm " abc" 2 1 = "abc..." ∧
    ∀ p : List Char, p <+: (" abc" : String).data →
      p ++ ("..." : String).data ≠ ("abc..." : String).data := by
  constructor
  · rfl
  · intro p hp
    have hm : p ∈ (" abc" : String).data.inits := by
      rw [List.mem_inits]; exact hp
    have he : (" abc" : String).data.inits =
        [[], [' '], [' ', 'a'], [' ', 'a', 'b'], [' ', 'a', 'b', 'c']] := by decide
    rw [he] at hm
    fin_cases hm <;> decide

/-- C6 (amended): when the capability fails on a (non-empty) stripped
input, `safe_summarize` returns a truncated prefix of the *stripped* input
of length at most twice the max-length target, suffixed with `"..."`; in
the model the function is total, so it never raises. -/
theorem safe_summarize_fallback (summ : Summarizer) (text : String) (maxL minL : Nat)
    (hne : ¬ pyStrip text = "") (hfail : summ (pyStrip text) maxL minL = Option.none) :
    ∃ P : String, safe_summarize summ text maxL minL = P ++ "..." ∧
      P.data <+: (pyStrip text).data ∧ P.length ≤ maxL * 2 := by
  refine ⟨pyStrip (pyTake (maxL * 2) (pyStrip text)), ?_, ?_, ?_⟩
  · simp only [safe_summarize]
    rw [if_neg hne, hfail]
  · have hx : List.dropWhile isPyWs (pyStrip text).data = (pyStrip text).data :=
      stripTheorem_dropWhile_fix text.data
    exact (stripChars_take_of_fix hx (maxL * 2)).trans ( List.take_prefix _ _)
  · show (stripChars ((pyStrip text).data.take (maxL * 2))).length ≤ maxL * 2
    calc (stripChars ((pyStrip text).data.take (maxL * 2))).length
        ≤ ((pyStrip text).data.take (maxL * 2)).length := stripChars_length_le _
      _ ≤ maxL * 2 := by rw [List.length_take]; exact min_le_left _ _

/-- C6 witness: the amended fallback statement at a concrete input. -/
theorem safe_summarize_fallback_witness :
    ¬ pyStrip "hello world" = "" ∧
    ∃ P : String, safe_summarize failSumm "hello world" 3 1 = P ++ "..." ∧
      P.data <+: (pyStrip "hello world").data ∧ P.length ≤ 3 * 2 :=
  ⟨by decide, safe_summarize_fallback failSumm "hello world" 3 1 (by decide) rfl⟩

/-! ## C10: the keyword classifier -/

theorem chooseCatLoop_eq_find (t : String) :
    ∀ l : List (String × List String),
      chooseCatLoop t l =
        (match l.find? (fun c => c.2.any (fun kw => strContains t kw)) with
         | some c => pyCapitalize c.1
         | Option.none => "General") := by
  intro l
  induction l with
  | nil => rfl
  | cons c rest ih =>
    obtain ⟨cat, kws⟩ := c
    by_cases hc : kws.any (fun kw => strContains t kw) = true
    · rw [@List.find?_cons_of_pos _ (fun c : String × List String =>
        c.2.any (fun kw => strContains t kw)) (cat, kws) rest hc]
      show (if kws.any (fun kw => strContains t kw) then pyCapitalize cat
            else chooseCatLoop t rest) = pyCapitalize cat
      rw [if_pos hc]
    · rw [@List.find?_cons_of_neg _ (fun c : String × List String =>
        c.2.any (fun kw => strContains t kw)) (cat, kws) rest hc]
      show (if kws.any (fun kw => strContains t kw) then pyCapitalize cat
            else chooseCatLoop t rest) = _
      rw [if_neg hc]
      exact ih

theorem tagStage_category (d : Article) : (tagStage d).category = d.category := by
  unfold tagStage
  split <;> rfl

theorem categoryStage_category (d : Article) :
    (categoryStage d).category =
      (if truthy d.category then d.category
       else some (choose_category_by_keywords (pyTake 4000 (d.body.getD "")))) := by
  unfold categoryStage
  split <;> simp_all

/-- C10: the classifier scans the ordered category map and returns the
first category (declaration order) with a keyword substring hit in the
lowercased text, else `"General"`; `"the match ended 2-1"` classifies as
`"Sports"`; and inside the pipeline the classifier's result is used exactly
when the category resolved by the earlier stages is unset or empty. -/
theorem choose_category_spec :
    (∀ text : String,
      choose_category_by_keywords text =
        (match categoriesList.find? (fun c =>
            c.2.any (fun kw => strContains (pyLower text) kw)) with
         | some c => pyCapitalize c.1
         | Option.none => "General"))
    ∧ choose_category_by_keywords "the match ended 2-1" = "Sports"
    ∧ (∀ (summ : Summarizer) (url : String) (p : PageData),
        (crawl_and_extract summ url (some p)).category =
          stripIfTruthy
            (let d := excerptStage summ (bodyStage p.dom
                (metaStage p.meta p.docTitle (applyStructured (emptyArticle url) p.jsonld)))
             if truthy d.category then d.category
             else some (choose_category_by_keywords (pyTake 4000 (d.body.getD ""))))) := by
  refine ⟨?_, ?_, ?_⟩
  · intro text
    exact chooseCatLoop_eq_find (pyLower text) categoriesList
  · decide
  · intro summ url p
    show (normalizeStage (tagStage (categoryStage _))).category = _
    rw [normalizeStage, tagStage_category, categoryStage_category]

/-! ## C9: tag inference -/

theorem insertDesc_perm (x : String × Nat) (l : List (String × Nat)) :
    (insertDesc x l).Perm (x :: l) := by
  induction l with
  | nil => exact List.Perm.refl _
  | cons y ys ih =>
    unfold insertDesc
    split
    · exact (List.Perm.cons y ih).trans (List.Perm.swap x y ys)
    · exact List.Perm.refl _

theorem sortDescByCount_cons (a : String × Nat) (rest : List (String × Nat)) :
    sortDescByCount (a :: rest) = insertDesc a (sortDescByCount rest) := rfl

theorem sortDescByCount_perm (l : List (String × Nat)) : (sortDescByCount l).Perm l := by
  induction l with
  | nil => exact List.Perm.refl _
  | cons a rest ih =>
    rw [sortDescByCount_cons]
    exact (insertDesc_perm a _).trans (List.Perm.cons a ih)

theorem insertDesc_pairwise (x : String × Nat) (l : List (String × Nat))
    (h : l.Pairwise (fun a b => b.2 ≤ a.2)) :
    (insertDesc x l).Pairwise (fun a b => b.2 ≤ a.2) := by
  induction l with
  | nil => simp [insertDesc]
  | cons y ys ih =>
    rw [List.pairwise_cons] at h
    obtain ⟨hy, hys⟩ := h
    unfold insertDesc
    split
    · rename_i hgt
      rw [List.pairwise_cons]
      refine ⟨?_, ih hys⟩
      intro z hz
      have hz2 : z ∈ x :: ys := (insertDesc_perm x ys).mem_iff.mp hz
      cases List.mem_cons.mp hz2 with
      | inl he => subst he; omega
      | inr hm => exact hy z hm
    · rename_i hle
      rw [List.pairwise_cons]
      refine ⟨?_, ?_⟩
      · intro z hz
        cases List.mem_cons.mp hz with
        | inl he => subst he; omega
        | inr hm => have := hy z hm; omega
      · rw [List.pairwise_cons]
        exact ⟨hy, hys⟩

theorem sortDescByCount_pairwise (l : List (String × Nat)) :
    (sortDescByCount l).Pairwise (fun a b => b.2 ≤ a.2) := by
  induction l with
  | nil => simp [sortDescByCount]
  | cons a rest ih =>
    rw [sortDescByCount_cons]
    exact insertDesc_pairwise a _ ih

theorem insertDesc_filter (x : String × Nat) (l : List (String × Nat)) (k : Nat) :
    (insertDesc x l).filter (fun a => a.2 == k) =
      (if x.2 = k then x :: l.filter (fun a => a.2 == k)
       else l.filter (fun a => a.2 == k)) := by
  induction l with
  | nil =>
    by_cases hx : x.2 = k <;> simp [insertDesc, List.filter_cons, hx]
  | cons y ys ih =>
    unfold insertDesc
    split
    · rename_i hgt
      by_cases hx : x.2 = k
      · have hyk : (y.2 == k) = false := by
          have hne : ¬ y.2 = k := by omega
          simp [hne]
        rw [if_pos hx]
        simp only [List.filter_cons, hyk, Bool.false_eq_true, if_false]
        rw [ih, if_pos hx]
      · rw [if_neg hx]
        simp only [List.filter_cons]
        rw [ih, if_neg hx]
    · by_cases hx : x.2 = k
      · rw [if_pos hx]
        simp [List.filter_cons, hx]
      · rw [if_neg hx]
        simp [List.filter_cons, hx]

theorem sortDescByCount_filter (l : List (String × Nat)) (k : Nat) :
    (sortDescByCount l).filter (fun a => a.2 == k) = l.filter (fun a => a.2 == k) := by
  induction l with
  | nil => rfl
  | cons a rest ih =>
    rw [sortDescByCount_cons, insertDesc_filter]
    by_cases ha : a.2 = k
    · rw [if_pos ha, ih, List.filter_cons]
      have hb : (a.2 == k) = true := by simp [ha]
      rw [hb]
      simp
    · rw [if_neg ha, ih, List.filter_cons]
      have hb : (a.2 == k) = false := by simp [ha]
      rw [hb]
      simp

theorem inferTags_def (body : String) :
    inferTags body =
      (if (sortDescByCount (freqPairs (wordsOf body))).take 6 ≠ []
       then ((sortDescByCount (freqPairs (wordsOf body))).take 6).map Prod.fst
       else ["general"]) := rfl

/-- C9: tag inference counts the alphabetic length-≥-4 words of the
lowercased body, and returns at most 6 tags: the prefix of a
count-descending reordering of the distinct words (paired with their
frequencies) that preserves the first-occurrence order of equal-count
words; an empty word list yields exactly `["general"]`. -/
theorem inferTags_spec (body : String) :
    (wordsOf body = [] → inferTags body = ["general"])
    ∧ (inferTags body).length ≤ 6
    ∧ (wordsOf body ≠ [] →
        ∃ S : List (String × Nat),
          S.Perm (freqPairs (wordsOf body))
          ∧ S.Pairwise (fun a b => b.2 ≤ a.2)
          ∧ (∀ k, S.filter (fun a => a.2 == k) =
              (freqPairs (wordsOf body)).filter (fun a => a.2 == k))
          ∧ inferTags body = (S.take 6).map Prod.fst) := by
  refine ⟨?_, ?_, ?_⟩
  · intro h
    rw [inferTags_def, h]
    rfl
  · rw [inferTags_def]
    split
    · rw [List.length_map, List.length_take]
      omega
    · decide
  · intro h
    refine ⟨sortDescByCount (freqPairs (wordsOf body)), sortDescByCount_perm _,
      sortDescByCount_pairwise _, fun k => sortDescByCount_filter _ k, ?_⟩
    have h1 : freqPairs (wordsOf body) ≠ [] := by
      cases hw : wordsOf body with
      | nil => exact absurd hw h
      | cons w ws =>
        simp [freqPairs, firstOccs, firstOccsAux]
    have h2 : (sortDescByCount (freqPairs (wordsOf body))).length =
        (freqPairs (wordsOf body)).length := (sortDescByCount_perm _).length_eq
    have h3 : 0 < (freqPairs (wordsOf body)).length := List.length_pos.mpr h1
    rw [inferTags_def, if_pos ?_]
    intro hnil
    have h4 := congrArg List.length hnil
    rw [List.length_take] at h4
    simp only [List.length_nil] at h4
    omega

/-- C9 witness: the characterization applied to a concrete body with a
repeated top word. -/
theorem inferTags_spec_witness :
    wordsOf "vote vote election" ≠ [] ∧
    ∃ S : List (String × Nat),
      S.Perm (freqPairs (wordsOf "vote vote election"))
      ∧ S.Pairwise (fun a b => b.2 ≤ a.2)
      ∧ (∀ k, S.filter (fun a => a.2 == k) =
          (freqPairs (wordsOf "vote vote election")).filter (fun a => a.2 == k))
      ∧ inferTags "vote vote election" = (S.take 6).map Prod.fst :=
  ⟨by decide, (inferTags_spec "vote vote election").2.2 (by decide)⟩

/-! ## The structured-data stage: projection and fold lemmas -/

theorem applyNode_not_qual {d : Article} {n : LdNode} (h : ¬ qualifies n = true) :
    applyNode d n = d := by
  unfold applyNode
  rw [if_neg h]

theorem applyNode_headline {d : Article} {n : LdNode} (h : qualifies n = true) :
    (applyNode d n).headline =
      (if truthy d.headline then d.headline
       else pyOr n.headline (pyOr n.name d.headline)) := by
  unfold applyNode
  rw [if_pos h]

theorem applyNode_publishedAt {d : Article} {n : LdNode} (h : qualifies n = true) :
    (applyNode d n).publishedAt =
      (if truthy n.datePublished then n.datePublished else d.publishedAt) := by
  unfold applyNode
  rw [if_pos h]

theorem applyNode_category {d : Article} {n : LdNode} (h : qualifies n = true) :
    (applyNode d n).category =
      (if truthy n.articleSection then n.articleSection else d.category) := by
  unfold applyNode
  rw [if_pos h]

theorem applyNode_author {d : Article} {n : LdNode} (h : qualifies n = true) :
    (applyNode d n).author = updAuthor d.author n.author := by
  unfold applyNode
  rw [if_pos h]

theorem applyNode_tags {d : Article} {n : LdNode} (h : qualifies n = true) :
    (applyNode d n).tags =
      (match n.keywords with
       | some kw => if truthyKw (some kw) && d.tags.isEmpty then kwTags kw else d.tags
       | Option.none => d.tags) := by
  unfold applyNode
  rw [if_pos h]

theorem bool_eq_false {b : Bool} (h : ¬ b = true) : b = false := by
  revert h
  cases b <;> simp

theorem nodeHead_truthy {n : LdNode} {h : String} (he : nodeHead n = some h) :
    truthy (some h) = true := by
  unfold nodeHead at he
  split at he
  · rename_i t1
    rw [he] at t1
    exact t1
  · split at he
    · rename_i t2
      rw [he] at t2
      exact t2
    · cases he

theorem pyOr_nodeHead {n : LdNode} {o : Option String} :
    pyOr n.headline (pyOr n.name o) =
      (match nodeHead n with
       | some h => some h
       | Option.none => o) := by
  unfold nodeHead pyOr
  by_cases t1 : truthy n.headline = true
  · rw [if_pos t1, if_pos t1]
    cases hh : n.headline with
    | none => rw [hh] at t1; simp [truthy] at t1
    | some h => rfl
  · rw [if_neg t1, if_neg t1]
    by_cases t2 : truthy n.name = true
    · rw [if_pos t2, if_pos t2]
      cases hh : n.name with
      | none => rw [hh] at t2; simp [truthy] at t2
      | some h => rfl
    · rw [if_neg t2, if_neg t2]

theorem foldl_headline_keep (ns : List LdNode) :
    ∀ acc : Article, truthy acc.headline = true →
      (List.foldl applyNode acc ns).headline = acc.headline := by
  induction ns with
  | nil => intro acc _; rfl
  | cons n rest ih =>
    intro acc h
    rw [List.foldl_cons]
    have hh : (applyNode acc n).headline = acc.headline := by
      by_cases hq : qualifies n = true
      · rw [applyNode_headline hq, if_pos h]
      · rw [applyNode_not_qual hq]
    rw [ih (applyNode acc n) (by rw [hh]; exact h), hh]

theorem foldl_headline (ns : List LdNode) :
    ∀ acc : Article, truthy acc.headline = false →
      (List.foldl applyNode acc ns).headline =
        (match specFirstHeadline ns with
         | some h => some h
         | Option.none => acc.headline) := by
  induction ns with
  | nil => intro acc _; rfl
  | cons n rest ih =>
    intro acc hacc
    rw [List.foldl_cons]
    have hspec : specFirstHeadline (n :: rest) =
        (match (if qualifies n then nodeHead n else Option.none) with
         | some h => some h
         | Option.none => specFirstHeadline rest) := by
      unfold specFirstHeadline
      rw [List.findSome?_cons]
      cases hq : (if qualifies n then nodeHead n else Option.none) <;> rfl
    rw [hspec]
    by_cases hq : qualifies n = true
    · rw [if_pos hq]
      have hanot : ¬ truthy acc.headline = true := by rw [hacc]; simp
      cases hnh : nodeHead n with
      | some h0 =>
        have hacc' : (applyNode acc n).headline = some h0 := by
          rw [applyNode_headline hq, if_neg hanot, pyOr_nodeHead, hnh]
        rw [foldl_headline_keep rest (applyNode acc n)
          (by rw [hacc']; exact nodeHead_truthy hnh), hacc']
      | none =>
        have hacc' : (applyNode acc n).headline = acc.headline := by
          rw [applyNode_headline hq, if_neg hanot, pyOr_nodeHead, hnh]
        rw [ih (applyNode acc n) (by rw [hacc']; exact hacc), hacc']
    · rw [if_neg hq, applyNode_not_qual hq]
      exact ih acc hacc

theorem foldl_publishedAt (ns : List LdNode) :
    ∀ acc : Article,
      (List.foldl applyNode acc ns).publishedAt =
        (match specLastDate ns with
         | some d0 => some d0
         | Option.none => acc.publishedAt) := by
  induction ns with
  | nil => intro acc; rfl
  | cons n rest ih =>
    intro acc
    rw [List.foldl_cons, ih (applyNode acc n)]
    simp only [specLastDate]
    cases hrest : specLastDate rest with
    | some d0 => rfl
    | none =>
      by_cases hq : qualifies n = true
      · by_cases ht : truthy n.datePublished = true
        · rw [applyNode_publishedAt hq, if_pos ht]
          cases hdp : n.datePublished with
          | none => rw [hdp] at ht; exact absurd ht (by simp [truthy])
          | some s =>
            have hts : truthy (some s) = true := hdp ▸ ht
            simp [hq, hdp, hts]
        · rw [applyNode_publishedAt hq, if_neg ht]
          simp [hq, bool_eq_false ht]
      · rw [applyNode_not_qual hq]
        simp [bool_eq_false hq]

theorem foldl_category (ns : List LdNode) :
    ∀ acc : Article,
      (List.foldl applyNode acc ns).category =
        (match specLastSection ns with
         | some d0 => some d0
         | Option.none => acc.category) := by
  induction ns with
  | nil => intro acc; rfl
  | cons n rest ih =>
    intro acc
    rw [List.foldl_cons, ih (applyNode acc n)]
    simp only [specLastSection]
    cases hrest : specLastSection rest with
    | some d0 => rfl
    | none =>
      by_cases hq : qualifies n = true
      · by_cases ht : truthy n.articleSection = true
        · rw [applyNode_category hq, if_pos ht]
          cases hdp : n.articleSection with
          | none => rw [hdp] at ht; exact absurd ht (by simp [truthy])
          | some s =>
            have hts : truthy (some s) = true := hdp ▸ ht
            simp [hq, hdp, hts]
        · rw [applyNode_category hq, if_neg ht]
          simp [hq, bool_eq_false ht]
      · rw [applyNode_not_qual hq]
        simp [bool_eq_false hq]

theorem foldl_tags_keep (ns : List LdNode) :
    ∀ acc : Article, acc.tags.isEmpty = false →
      (List.foldl applyNode acc ns).tags = acc.tags := by
  induction ns with
  | nil => intro acc _; rfl
  | cons n rest ih =>
    intro acc h
    rw [List.foldl_cons]
    have hh : (applyNode acc n).tags = acc.tags := by
      by_cases hq : qualifies n = true
      · rw [applyNode_tags hq]
        cases n.keywords with
        | none => rfl
        | some kw => simp [h]
      · rw [applyNode_not_qual hq]
    rw [ih (applyNode acc n) (by rw [hh]; exact h), hh]

theorem foldl_tags (ns : List LdNode) :
    ∀ acc : Article, acc.tags = [] →
      (List.foldl applyNode acc ns).tags =
        (match specFirstTags ns with
         | some l => l
         | Option.none => acc.tags) := by
  induction ns with
  | nil => intro acc _; rfl
  | cons n rest ih =>
    intro acc hacc
    rw [List.foldl_cons]
    simp only [specFirstTags]
    by_cases hq : qualifies n = true
    · cases hkw : n.keywords with
      | none =>
        have hh : (applyNode acc n).tags = acc.tags := by
          rw [applyNode_tags hq, hkw]
        rw [ih (applyNode acc n) (by rw [hh]; exact hacc), hh]
      | some kw =>
        by_cases htk : truthyKw (some kw) = true
        · by_cases hne : (kwTags kw).isEmpty = true
          · have hh : (applyNode acc n).tags = acc.tags := by
              rw [applyNode_tags hq, hkw]
              have : kwTags kw = [] := by
                revert hne
                cases kwTags kw <;> simp
              simp [hacc, htk, this]
            rw [ih (applyNode acc n) (by rw [hh]; exact hacc), hh]
            simp [hq, htk, hne]
          · have hh : (applyNode acc n).tags = kwTags kw := by
              rw [applyNode_tags hq, hkw]
              simp [hacc, htk]
            rw [foldl_tags_keep rest (applyNode acc n)
              (by rw [hh]; exact bool_eq_false hne), hh]
            simp [hq, htk, bool_eq_false hne]
        · have hh : (applyNode acc n).tags = acc.tags := by
            rw [applyNode_tags hq, hkw]
            simp [bool_eq_false htk]
          rw [ih (applyNode acc n) (by rw [hh]; exact hacc), hh]
          simp [bool_eq_false htk]
    · rw [applyNode_not_qual hq]
      have hq' := bool_eq_false hq
      cases hkw : n.keywords with
      | none => exact ih acc hacc
      | some kw =>
        rw [ih acc hacc]
        simp [hq']

/-! ## C3: field resolution within the structured-data extractor -/

/-- C3, counterexample: the claim says the first qualifying item supplying
`datePublished` wins, but the extractor has no already-set guard for that
field: with items carrying dates "D1" then "D2", the result is "D2". -/
theorem structured_date_counterexample :
    (List.foldl applyNode (emptyArticle "u") [nDate1, nDate2]).publishedAt = some "D2" ∧
    ¬ (List.foldl applyNode (emptyArticle "u") [nDate1, nDate2]).publishedAt = some "D1" := by
  constructor
  · decide
  · decide

/-- C3 (amended): within the structured-data extractor, starting from the
empty record: the *first* qualifying item supplying a non-empty headline
(or name) fixes the headline; the *last* qualifying item supplying a
non-empty `datePublished` (resp. `articleSection`) fixes the date (resp.
category); tags come from the first qualifying item whose truthy keywords
convert to a non-empty list — a list is used verbatim, a string is split
on commas, trimmed, with empty parts dropped; the author is re-assigned by
later qualifying items (a final item with an author dict naming a
non-empty name determines the author). -/
theorem structured_data_resolution (url : String) (ns : List LdNode) :
    (List.foldl applyNode (emptyArticle url) ns).headline = specFirstHeadline ns
    ∧ (List.foldl applyNode (emptyArticle url) ns).publishedAt = specLastDate ns
    ∧ (List.foldl applyNode (emptyArticle url) ns).category = specLastSection ns
    ∧ (List.foldl applyNode (emptyArticle url) ns).tags = (specFirstTags ns).getD []
    ∧ (∀ (ms : List LdNode) (n : LdNode) (nm : String), qualifies n = true →
        n.author = some (LdAuthor.adict (some nm)) → ¬ nm = "" →
        (List.foldl applyNode (emptyArticle url) (ms ++ [n])).author = some nm)
    ∧ (∀ s : String,
        kwTags (Sum.inr s) = ((s.splitOn ",").map pyStrip).filter (fun k => k ≠ "")) := by
  refine ⟨?_, ?_, ?_, ?_, ?_, fun s => rfl⟩
  · rw [foldl_headline ns (emptyArticle url) rfl]
    cases specFirstHeadline ns <;> rfl
  · rw [foldl_publishedAt ns (emptyArticle url)]
    cases specLastDate ns <;> rfl
  · rw [foldl_category ns (emptyArticle url)]
    cases specLastSection ns <;> rfl
  · rw [foldl_tags ns (emptyArticle url) rfl]
    cases specFirstTags ns <;> rfl
  · intro ms n nm hq ha hnm
    rw [List.foldl_append, List.foldl_cons, List.foldl_nil, applyNode_author hq, ha]
    unfold updAuthor pyOr
    simp [truthy, hnm]

/-- C3 witness: the amended resolution applied to the two-date item list,
including the author re-assignment clause at concrete items. -/
theorem structured_data_resolution_witness :
    (List.foldl applyNode (emptyArticle "w") ([nAuthX] ++ [nAuthY])).author = some "Y" :=
  (structured_data_resolution "w" []).2.2.2.2.1 [nAuthX] nAuthY "Y" rfl rfl (by decide)

/-! ## C7: structured data is never overwritten by later stages -/

theorem metaStage_headline (meta : MetaF) (docTitle : Option String) (d : Article) :
    (metaStage meta docTitle d).headline =
      (if truthy d.headline then d.headline
       else pyOr (some meta.title) (docTitle.map pyStrip)) := rfl

theorem bodyStage_headline (dom : Dom) (d : Article) :
    (bodyStage dom d).headline = d.headline := rfl

theorem excerptStage_headline (summ : Summarizer) (d : Article) :
    (excerptStage summ d).headline = d.headline := by
  unfold excerptStage
  split <;> rfl

theorem categoryStage_headline (d : Article) : (categoryStage d).headline = d.headline := by
  unfold categoryStage
  split <;> rfl

theorem tagStage_headline (d : Article) : (tagStage d).headline = d.headline := by
  unfold tagStage
  split <;> rfl

theorem normalizeStage_headline (d : Article) :
    (normalizeStage d).headline = stripIfTruthy d.headline := rfl

theorem specFirstHeadline_ne_empty {ns : List LdNode} {h : String}
    (hs : specFirstHeadline ns = some h) : ¬ h = "" := by
  obtain ⟨n, _, hn⟩ := List.exists_of_findSome?_eq_some hs
  by_cases hq : qualifies n = true
  · rw [if_pos hq] at hn
    have := nodeHead_truthy hn
    simpa [truthy] using this
  · rw [if_neg hq] at hn
    cases hn

/-- C7: whenever the structured-data stage resolves a headline (the first
qualifying item with a non-empty headline or name), the returned record
carries exactly that headline (stripped); the metadata and heuristic
stages never overwrite it. -/
theorem structured_headline_not_overwritten (summ : Summarizer) (url : String)
    (p : PageData) (h : String)
    (hs : specFirstHeadline (p.jsonld.map blockNodes).flatten = some h) :
    (crawl_and_extract summ url (some p)).headline = some (pyStrip h) := by
  have hne : ¬ h = "" := specFirstHeadline_ne_empty hs
  have htr : truthy (some h) = true := by simp [truthy, hne]
  have h1 : (applyStructured (emptyArticle url) p.jsonld).headline = some h := by
    show (List.foldl applyNode (emptyArticle url) (p.jsonld.map blockNodes).flatten).headline
      = some h
    rw [foldl_headline _ (emptyArticle url) rfl, hs]
  show (normalizeStage (tagStage (categoryStage (excerptStage summ (bodyStage p.dom
    (metaStage p.meta p.docTitle (applyStructured (emptyArticle url) p.jsonld))))))).headline = _
  rw [normalizeStage_headline, tagStage_headline, categoryStage_headline,
    excerptStage_headline, bodyStage_headline, metaStage_headline, h1, if_pos htr]
  unfold stripIfTruthy
  rw [if_pos htr]
  rfl

/-- C7 witness: the spec's test — a NewsArticle block with headline "A"
and a conflicting meta title "B" resolve to headline "A". -/
theorem structured_headline_not_overwritten_witness :
    specFirstHeadline (pageAB.jsonld.map blockNodes).flatten = some "A" ∧
    (crawl_and_extract failSumm "u" (some pageAB)).headline = some (pyStrip "A") :=
  ⟨by decide, structured_headline_not_overwritten failSumm "u" pageAB "A" (by decide)⟩

/-! ## C2: the ArticleRecord invariant -/

/-- C2, counterexample: a JSON-LD keywords list is used verbatim (so tags
can contain the empty string), and a whitespace-only `articleSection`
survives the truthiness checks and is stripped to the empty string in the
final loop, so the returned category can be `""`. -/
theorem record_invariant_counterexample :
    "" ∈ (crawl_and_extract failSumm "u" (some pageBad)).tags ∧
    (crawl_and_extract failSumm "u" (some pageBad)).category = some "" := by
  constructor
  · decide
  · decide

theorem stripIfTruthy_trimmed {o : Option String} {s : String}
    (h : stripIfTruthy o = some s) : pyStrip s = s := by
  unfold stripIfTruthy at h
  split at h
  · rename_i ht
    cases o with
    | none => cases h
    | some x =>
      simp only [Option.map_some'] at h
      cases h
      exact pyStrip_idem x
  · rename_i ht
    cases o with
    | none => cases h
    | some x =>
      have hx : x = "" := by simpa [truthy] using ht
      cases h
      rw [hx]
      rfl

/-- C2 (amended): every present string field among headline, body, author,
publishedAt, category and excerpt of the returned record is
whitespace-trimmed. (The other two clauses of the claim fail: tags taken
verbatim from a JSON-LD keywords list may contain empty strings, and the
category can be the empty string when a whitespace-only value was
supplied — see the counterexample.) -/
theorem crawl_fields_trimmed (summ : Summarizer) (url : String) (page : Option PageData) :
    ∀ s : String,
      ((crawl_and_extract summ url page).headline = some s → pyStrip s = s)
      ∧ ((crawl_and_extract summ url page).body = some s → pyStrip s = s)
      ∧ ((crawl_and_extract summ url page).author = some s → pyStrip s = s)
      ∧ ((crawl_and_extract summ url page).publishedAt = some s → pyStrip s = s)
      ∧ ((crawl_and_extract summ url page).category = some s → pyStrip s = s)
      ∧ ((crawl_and_extract summ url page).excerpt = some s → pyStrip s = s) := by
  intro s
  cases page with
  | none =>
    refine ⟨?_, ?_, ?_, ?_, ?_, ?_⟩ <;>
      (intro h; simp [crawl_and_extract, emptyArticle] at h)
  | some p =>
    refine ⟨?_, ?_, ?_, ?_, ?_, ?_⟩ <;>
      (intro h; exact stripIfTruthy_trimmed h)

/-- C2 witness: the trimmed-fields statement at a concrete page. -/
theorem crawl_fields_trimmed_witness :
    (crawl_and_extract failSumm "u" (some pageAB)).headline = some "A" ∧
    pyStrip "A" = "A" :=
  ⟨by decide, (crawl_fields_trimmed failSumm "u" (some pageAB) "A").1 (by decide)⟩

/-! ## C5: the chunk-then-reduce summarization orchestration -/

theorem categoryStage_excerpt (d : Article) : (categoryStage d).excerpt = d.excerpt := by
  unfold categoryStage
  split <;> rfl

theorem tagStage_excerpt (d : Article) : (tagStage d).excerpt = d.excerpt := by
  unfold tagStage
  split <;> rfl

theorem normalizeStage_excerpt (d : Article) :
    (normalizeStage d).excerpt = stripIfTruthy d.excerpt := rfl

theorem stripIfTruthy_some_of_fix {e : String} (he : pyStrip e = e) :
    stripIfTruthy (some e) = some e := by
  unfold stripIfTruthy
  split
  · rw [Option.map_some', he]
  · rfl

/-- C5: for a page whose extracted body is non-empty, the excerpt stored in
the record is: a single summarization with targets 130/30 when the body
fits in one chunk; otherwise the per-chunk summaries (targets 120/20),
joined by blank lines, summarized once more with targets 150/40. -/
theorem excerpt_map_reduce (summ : Summarizer) (url : String) (p : PageData)
    (hb : ¬ extract_main_text p.dom = "") :
    (crawl_and_extract summ url (some p)).excerpt =
      some (if (chunk_text_by_chars (extract_main_text p.dom) 3000).length = 1
            then safe_summarize summ (extract_main_text p.dom) 130 30
            else safe_summarize summ
              (String.intercalate "\n\n"
                ((chunk_text_by_chars (extract_main_text p.dom) 3000).map
                  (fun ch => safe_summarize summ ch 120 20))) 150 40) := by
  have hbody : (bodyStage p.dom (metaStage p.meta p.docTitle
      (applyStructured (emptyArticle url) p.jsonld))).body =
      some (extract_main_text p.dom) := by
    simp only [bodyStage]
    rw [if_neg hb]
  have hz : truthy (bodyStage p.dom (metaStage p.meta p.docTitle
      (applyStructured (emptyArticle url) p.jsonld))).body = true := by
    rw [hbody]
    simp [truthy, hb]
  show (normalizeStage (tagStage (categoryStage (excerptStage summ (bodyStage p.dom
    (metaStage p.meta p.docTitle (applyStructured (emptyArticle url) p.jsonld))))))).excerpt = _
  rw [normalizeStage_excerpt, tagStage_excerpt, categoryStage_excerpt]
  have hexc : (excerptStage summ (bodyStage p.dom (metaStage p.meta p.docTitle
      (applyStructured (emptyArticle url) p.jsonld)))).excerpt =
      some (if (chunk_text_by_chars (extract_main_text p.dom) 3000).length = 1
            then safe_summarize summ (extract_main_text p.dom) 130 30
            else safe_summarize summ
              (String.intercalate "\n\n"
                ((chunk_text_by_chars (extract_main_text p.dom) 3000).map
                  (fun ch => safe_summarize summ ch 120 20))) 150 40) := by
    unfold excerptStage
    rw [if_pos hz, hbody]
    rfl
  rw [hexc]
  refine stripIfTruthy_some_of_fix ?_
  by_cases hc : (chunk_text_by_chars (extract_main_text p.dom) 3000).length = 1
  · rw [if_pos hc]
    exact pyStrip_safe_summarize summ (extract_main_text p.dom) 130 30
  · rw [if_neg hc]
    exact pyStrip_safe_summarize summ _ 150 40

/-- C5 witness: the orchestration equation at a concrete single-chunk page
with the always-failing capability. -/
theorem excerpt_map_reduce_witness :
    ¬ extract_main_text pageAB.dom = "" ∧
    (crawl_and_extract failSumm "u" (some pageAB)).excerpt =
      some (if (chunk_text_by_chars (extract_main_text pageAB.dom) 3000).length = 1
            then safe_summarize failSumm (extract_main_text pageAB.dom) 130 30
            else safe_summarize failSumm
              (String.intercalate "\n\n"
                ((chunk_text_by_chars (extract_main_text pageAB.dom) 3000).map
                  (fun ch => safe_summarize failSumm ch 120 20))) 150 40) :=
  ⟨by decide, excerpt_map_reduce failSumm "u" pageAB (by decide)⟩

/-! ## C4: the body-extraction policy -/

/-- C4, counterexample: the claim says a rule yielding only empty text does
not stop the search, but the article rule fires on the mere presence of
paragraph elements: a document whose article holds one empty paragraph
returns `""` even though a div holds the paragraph text `"Hello"`. -/
theorem body_extractor_counterexample :
    extract_main_text domC4 = "" ∧ ¬ extract_main_text domC4 = "Hello" := by
  constructor
  · decide
  · decide

theorem bestAux_cases :
    ∀ (l : List String) (acc : String),
      (l.foldl bestStep acc = acc ∧ ∀ x ∈ l, x.length ≤ acc.length) ∨
      (∃ pre post, l = pre ++ (l.foldl bestStep acc) :: post ∧
        acc.length < (l.foldl bestStep acc).length ∧
        (∀ x ∈ pre, x.length < (l.foldl bestStep acc).length) ∧
        (∀ x ∈ post, x.length ≤ (l.foldl bestStep acc).length)) := by
  intro l
  induction l with
  | nil =>
    intro acc
    left
    exact ⟨rfl, by simp⟩
  | cons t rest ih =>
    intro acc
    rw [List.foldl_cons]
    by_cases h : t.length > acc.length
    · have hstep : bestStep acc t = t := by unfold bestStep; rw [if_pos h]
      rw [hstep]
      rcases ih t with ⟨hr, hall⟩ | ⟨pre', post', hl, hacc', hpre', hpost'⟩
      · right
        refine ⟨[], rest, ?_, ?_, ?_, ?_⟩
        · rw [hr]; simp
        · rw [hr]; omega
        · simp
        · rw [hr]; exact hall
      · right
        refine ⟨t :: pre', post', ?_, by omega, ?_, hpost'⟩
        · rw [List.cons_append, ← hl]
        · intro x hx
          cases List.mem_cons.mp hx with
          | inl he => subst he; omega
          | inr hm => exact hpre' x hm
    · have hstep : bestStep acc t = acc := by unfold bestStep; rw [if_neg h]
      rw [hstep]
      rcases ih acc with ⟨hr, hall⟩ | ⟨pre', post', hl, hacc', hpre', hpost'⟩
      · left
        refine ⟨hr, ?_⟩
        intro x hx
        cases List.mem_cons.mp hx with
        | inl he => subst he; omega
        | inr hm => exact hall x hm
      · right
        refine ⟨t :: pre', post', ?_, hacc', ?_, hpost'⟩
        · rw [List.cons_append, ← hl]
        · intro x hx
          cases List.mem_cons.mp hx with
          | inl he => subst he; omega
          | inr hm => exact hpre' x hm

theorem bestText_firstMax {l : List String} (h : ¬ bestText l = "") :
    ∃ pre post, l = pre ++ bestText l :: post ∧
      (∀ x ∈ pre, x.length < (bestText l).length) ∧
      (∀ x ∈ post, x.length ≤ (bestText l).length) := by
  rcases bestAux_cases l "" with ⟨hr, _⟩ | ⟨pre, post, hl, _, hpre, hpost⟩
  · exact absurd hr h
  · exact ⟨pre, post, hl, hpre, hpost⟩

/-- C4 (amended): the extractor's rules fire on container *presence*, not
on non-empty text: an article container decides the result outright (its
joined paragraph text when it has paragraphs, else its full text, either
possibly empty); else a `main` container with paragraphs decides; else the
div/section scan keeps the first container whose joined-paragraph text is
strictly longest (earlier candidates are strictly shorter, later ones no
longer), and only an empty best falls through to all paragraphs of the
document. -/
theorem extract_main_text_policy (soup : Dom) :
    (∀ a, findTag "article" soup = some a →
       extract_main_text soup =
         (if (findAllTag "p" a).isEmpty then getText "\n" a
          else joinParaTexts (findAllTag "p" a)))
    ∧ (findTag "article" soup = Option.none →
        ∀ m, findTag "main" soup = some m → (findAllTag "p" m).isEmpty = false →
          extract_main_text soup = joinParaTexts (findAllTag "p" m))
    ∧ (findTag "article" soup = Option.none →
        (findTag "main" soup = Option.none ∨
          (∃ m, findTag "main" soup = some m ∧ (findAllTag "p" m).isEmpty = true)) →
        ∀ cands, cands = ((childElems soup).filter
            (fun d => tagIs "div" d || tagIs "section" d)).map
            (fun d => joinParaTexts (findAllTag "p" d)) →
          ((¬ bestText cands = "" →
             extract_main_text soup = bestText cands ∧
             ∃ pre post, cands = pre ++ bestText cands :: post ∧
               (∀ x ∈ pre, x.length < (bestText cands).length) ∧
               (∀ x ∈ post, x.length ≤ (bestText cands).length))
           ∧ (bestText cands = "" →
               extract_main_text soup = joinParaTexts (findAllTag "p" soup)))) := by
  refine ⟨?_, ?_, ?_⟩
  · intro a ha
    unfold extract_main_text
    split
    · rename_i article harticle
      rw [ha] at harticle
      injection harticle with he
      subst he
      rfl
    · rename_i hnone
      rw [ha] at hnone
      cases hnone
  · intro hart m hm hp
    unfold extract_main_text
    split
    · rename_i article harticle
      rw [hart] at harticle
      cases harticle
    · split
      · rename_i m' hm'
        rw [hm] at hm'
        injection hm' with he
        subst he
        rw [hp]
        simp only [Bool.false_eq_true, if_false]
      · rename_i hm'
        rw [hm] at hm'
        cases hm'
  · intro hart hmain cands hcands
    have hdiv : extract_main_text soup = divScan soup := by
      unfold extract_main_text
      split
      · rename_i article harticle
        rw [hart] at harticle
        cases harticle
      · split
        · rename_i m' hm'
          rcases hmain with hm | ⟨m, hm, hp⟩
          · rw [hm] at hm'
            cases hm'
          · rw [hm] at hm'
            injection hm' with he
            subst he
            rw [hp]
            simp only [if_pos]
        · rfl
    have hscan : divScan soup =
        (if ¬ bestText cands = "" then bestText cands
         else joinParaTexts (findAllTag "p" soup)) := by
      rw [hcands]
      rfl
    subst hcands
    constructor
    · intro hbne
      refine ⟨?_, bestText_firstMax hbne⟩
      rw [hdiv, hscan, if_pos hbne]
    · intro hbe
      rw [hdiv, hscan, if_neg (fun hcon => hcon hbe)]

/-- C4 witness: the amended policy at a concrete document with two divs,
showing the longest-paragraph-cluster rule selecting the longer div. -/
theorem extract_main_text_policy_witness :
    extract_main_text domDivs = bestText (((childElems domDivs).filter
        (fun d => tagIs "div" d || tagIs "section" d)).map
        (fun d => joinParaTexts (findAllTag "p" d))) :=
  (((extract_main_text_policy domDivs).2.2 rfl (Or.inl rfl) _ rfl).1 (by decide)).1

end NewsExtractor
